import Mathlib

/-!
Shallow embedding of the libdocview core (src/src/libdocview/libdocview.cpp).

This file embeds the data model and the operations of the docview registry:
document trees (`docview::doc_tree_node`), the recursive search
(`search_node`, `docview::search`), the extension registry state
(`loaded_libs`, `loaded_extensions`, `root_nodes`), loading and unloading of
extension modules (`docview::load_ext`, `docview::unload_ext`,
`docview::is_loaded`), tree parsing dispatch (`docview::get_doc_tree`),
node validation (`docview::validate`), owner resolution (`get_extension`)
and the query operations (`docview::get_doc`, `brief`, `details`, `section`),
together with the C function-table adapter (`c_extension`).

Strings are modelled as `List Char` (byte-exact comparison, as for
`std::string`). Node pointers are modelled as a root identity together with
a position (path of child indices) inside the tree hanging off that root;
the `parent` pointer of a node at position `p ++ [i]` refers to the node at
position `p` of the same root.
-/

/-- A document tree node (`docview::doc_tree_node`): title, synonyms and the
ordered children. The `parent` back-pointer of the C++ structure is implicit
in the tree shape. -/
inductive DocTree : Type where
  | node : List Char → List (List Char) → List DocTree → DocTree
deriving Repr

/-- Title field of a node. -/
def DocTree.title : DocTree → List Char
  | .node t _ _ => t

/-- Synonyms field of a node. -/
def DocTree.synonyms : DocTree → List (List Char)
  | .node _ s _ => s

/-- Children field of a node. -/
def DocTree.children : DocTree → List DocTree
  | .node _ _ c => c

/-- Subtree lookup: the node reached from `t` by following the given child
indices (the pure counterpart of following child pointers). -/
def getAt : List Nat → DocTree → Option DocTree
  | [], t => some t
  | i :: p, t => (t.children[i]?).bind (getAt p)

/-- Whether a node matches a query: the title or some synonym starts with the
query, exactly as the `substr(0, query.size()) == query` comparisons of
`search_node` in libdocview.cpp. -/
def nodeMatches (q : List Char) (t : DocTree) : Bool :=
  (t.title.take q.length == q) || t.synonyms.any (fun s => s.take q.length == q)

mutual

/-- `search_node` of libdocview.cpp: collects (as positions relative to the
given node) the node itself when its title — or, failing that, one of its
synonyms — starts with the query, followed by the matches inside each child,
children in stored order. -/
def search_node (q : List Char) : DocTree → List (List Nat)
  | .node t syns cs =>
    (if t.take q.length == q then [([] : List Nat)]
     else if syns.any (fun s => s.take q.length == q) then [([] : List Nat)]
     else []) ++ searchKids q 0 cs
termination_by t => sizeOf t

/-- The child loop of `search_node`: matches of the `i`-th, `i+1`-th, …
children, each position prefixed by its child index. -/
def searchKids (q : List Char) : Nat → List DocTree → List (List Nat)
  | _, [] => []
  | i, c :: rest => (search_node q c).map (fun p => i :: p) ++ searchKids q (i + 1) rest
termination_by _ cs => sizeOf cs

end

mutual

/-- Depth-first pre-order enumeration of all positions of a tree: the node
itself first, then the positions inside each child in stored order. -/
def preorder : DocTree → List (List Nat)
  | .node _ _ cs => [] :: preorderKids 0 cs
termination_by t => sizeOf t

/-- Pre-order positions of the `i`-th, `i+1`-th, … children of a node. -/
def preorderKids : Nat → List DocTree → List (List Nat)
  | _, [] => []
  | i, c :: rest => (preorder c).map (fun p => i :: p) ++ preorderKids (i + 1) rest
termination_by _ cs => sizeOf cs

end

/-- Whether the position `p` inside tree `t` denotes a node matching `q`. -/
def matchesAt (q : List Char) (t : DocTree) (p : List Nat) : Bool :=
  match getAt p t with
  | some s => nodeMatches q s
  | none => false

/-! ## Registry state (the globals of libdocview.cpp) -/

/-- File system paths (`std::filesystem::path`). -/
abbrev FsPath := String

/-- Identity of an extension object (`docview::extension*`). -/
abbrev ExtId := Nat

/-- Identity of a root node pointer returned by an extension
(`const docview::doc_tree_node*` of a tree root). -/
abbrev RootId := Nat

/-- A node pointer: the root identity whose tree the node lives in, and the
position inside that tree. Following the `parent` pointer shortens `pos` by
one; a root has `pos = []`. -/
structure NodeRef where
  root : RootId
  pos : List Nat
deriving DecidableEq, Repr

/-- One step of the `parent` pointer; `none` for a root node. -/
def parentOf (n : NodeRef) : Option NodeRef :=
  match n.pos with
  | [] => none
  | _ :: _ => some ⟨n.root, n.pos.dropLast⟩

/-- The `while (root->parent) root = root->parent;` walk of libdocview.cpp
(used by `get_extension` and `docview::validate`). -/
def walkToRoot (n : NodeRef) : NodeRef :=
  match h : parentOf n with
  | none => n
  | some p => walkToRoot p
termination_by n.pos.length
decreasing_by
  unfold parentOf at h
  cases hp : n.pos with
  | nil => rw [hp] at h; simp at h
  | cons a l =>
    rw [hp] at h
    simp only [Option.some.injEq] at h
    subst h
    simp [hp, List.length_dropLast]

/-- An abstract view of the file-system calls used by libdocview:
`std::filesystem::exists` and `is_regular_file` follow symbolic links,
`is_symlink` and `read_symlink` inspect the link itself. -/
structure FileSys where
  exists_ : FsPath → Bool
  is_regular_file : FsPath → Bool
  is_symlink : FsPath → Bool
  read_symlink : FsPath → FsPath

/-- The symlink resolution loop
`while (exists(path) && is_symlink(path)) path = read_symlink(path);`
with explicit fuel (the C++ loop diverges on symlink cycles; claims are
stated for paths whose resolution settles within the given fuel). -/
def resolveLinks (fs : FileSys) : Nat → FsPath → FsPath
  | 0, p => p
  | fuel + 1, p =>
    if fs.exists_ p && fs.is_symlink p then resolveLinks fs fuel (fs.read_symlink p) else p

/-- The function table exposed by a C extension via the
`extension_functions` symbol (`docview_extension_funcs` of docview.h); each
field is `none` when the corresponding function pointer is null. -/
structure CExtFuncs where
  applicability_level : Option Nat
  get_docs_tree : Option (FsPath → Option RootId)
  get_doc : Option (Nat → String × Bool)
  get_brief : Option (Nat → String)
  get_details : Option (Nat → String)
  get_section : Option (Nat → String → String)

/-- The mandatory-pointer check of the `c_extension` constructor: it throws
unless `applicability_level`, `func_get_docs_tree` and `get_doc` are all
non-null. -/
def CExtFuncs.mandatoryPresent (f : CExtFuncs) : Bool :=
  f.applicability_level.isSome && f.get_docs_tree.isSome && f.get_doc.isSome

/-- What a loadable module file exposes: whether `dlopen` succeeds, the
`extension_object` symbol (a native C++ extension) if present, the
`extension_functions` symbol (a C function table) if present, and the
identity of the `c_extension` wrapper object that would be constructed from
the table. -/
structure ModuleInfo where
  canOpen : Bool
  extObj : Option ExtId
  funcs : Option CExtFuncs
  cExtId : ExtId

/-- Behaviour of an extension object as seen from the registry: the virtual
methods of `docview::extension`. -/
structure ExtObj where
  lvl : Nat
  parse : FsPath → Option RootId
  doc : NodeRef → String × Bool
  brief : NodeRef → String
  details : NodeRef → String
  sect : NodeRef → String → String

/-- One entry of `loaded_libs`: a `dl_ptr`, carrying the stored path and the
extension object attached to the module (null until a successful load
completes). -/
structure LoadedLib where
  path : FsPath
  ext : Option ExtId
deriving DecidableEq, Repr

/-- The global registry state of libdocview.cpp: `loaded_libs`,
`loaded_extensions`, `loaded_c_extensions` and `root_nodes`. -/
structure State where
  loaded_libs : List LoadedLib
  loaded_extensions : List ExtId
  loaded_c_extensions : List ExtId
  root_nodes : List (RootId × ExtId)
deriving Repr

/-- Errors thrown by the registry operations (section 7 of the design:
`NotFound`, `InvalidExtension`, `InvalidNode`). -/
inductive Err where
  | notFound
  | invalidExt
  | invalidNode
deriving DecidableEq, Repr

/-- `docview::is_loaded`: scans `loaded_libs` for an entry whose stored path
equals the given path. -/
def is_loaded (st : State) (path : FsPath) : Bool :=
  st.loaded_libs.any (fun l => l.path = path)

/-- Sets the `extension` field of the last `loaded_libs` entry, as
`loaded_libs[loaded_libs.size() - 1].extension = extension;` does. -/
def setLastExt (e : ExtId) : List LoadedLib → List LoadedLib
  | [] => []
  | [l] => [{ l with ext := some e }]
  | l :: l' :: rest => l :: setLastExt e (l' :: rest)

/-- The body of `docview::load_ext` after path checks succeed, operating on
the resolved path `q`: pushes the `dl_ptr`, fails with `InvalidExtension` if
the module cannot be opened (popping the entry) or exposes neither a native
`extension_object` nor a complete `extension_functions` table (keeping the
entry), and otherwise registers the extension object and attaches it to the
module entry. -/
def loadCore (mods : FsPath → ModuleInfo) (st : State) (q : FsPath) : State × Option Err :=
  let m := mods q
  let st1 : State := { st with loaded_libs := st.loaded_libs ++ [⟨q, none⟩] }
  if !m.canOpen then
    (st, some .invalidExt)
  else
    match m.extObj with
    | some e =>
      ({ st1 with
          loaded_extensions := st1.loaded_extensions ++ [e]
          loaded_libs := setLastExt e st1.loaded_libs }, none)
    | none =>
      match m.funcs with
      | none => (st1, some .invalidExt)
      | some fns =>
        if fns.mandatoryPresent then
          ({ st1 with
              loaded_c_extensions := st1.loaded_c_extensions ++ [m.cExtId]
              loaded_extensions := st1.loaded_extensions ++ [m.cExtId]
              loaded_libs := setLastExt m.cExtId st1.loaded_libs }, none)
        else (st1, some .invalidExt)

/-- `docview::load_ext`: no-op when already loaded; `NotFound` when the path
does not exist; when the path is not (after following links) a regular file,
resolves symlinks and fails with `NotFound` unless the target is an existing
regular file; then loads the module via `loadCore`. The returned state is
the global state after the call, also when an error is thrown. -/
def load_ext (fs : FileSys) (mods : FsPath → ModuleInfo) (fuel : Nat) (st : State)
    (path : FsPath) : State × Option Err :=
  if is_loaded st path then (st, none)
  else if !fs.exists_ path then (st, some .notFound)
  else if fs.is_regular_file path then loadCore mods st path
  else
    let q := resolveLinks fs fuel path
    if fs.exists_ q && fs.is_regular_file q then loadCore mods st q
    else (st, some .notFound)

/-- The `root_nodes` erase loop of `docview::unload_ext`: removes every root
record whose owning extension pointer equals the module's attached extension
pointer (which is null for a half-loaded module, matching no record). -/
def removeRootsOf (oe : Option ExtId) : List (RootId × ExtId) → List (RootId × ExtId)
  | [] => []
  | rn :: rest =>
    if oe = some rn.2 then removeRootsOf oe rest else rn :: removeRootsOf oe rest

/-- The `loaded_extensions` erase loop of `docview::unload_ext`. -/
def removeExts (oe : Option ExtId) : List ExtId → List ExtId
  | [] => []
  | x :: rest => if oe = some x then removeExts oe rest else x :: removeExts oe rest

/-- The `loaded_libs` erase of `docview::unload_ext`: removes the found
entry, i.e. the first entry with the given path. -/
def eraseFirstLib (path : FsPath) : List LoadedLib → List LoadedLib
  | [] => []
  | l :: rest => if l.path = path then rest else l :: eraseFirstLib path rest

/-- `docview::unload_ext`: finds the first loaded module with the given
path (no-op when absent), removes every root record owned by its extension,
removes the extension from `loaded_extensions`, and removes the module
entry. -/
def unload_ext (st : State) (path : FsPath) : State :=
  match st.loaded_libs.find? (fun l => l.path = path) with
  | none => st
  | some lib =>
    { loaded_libs := eraseFirstLib path st.loaded_libs
      loaded_extensions := removeExts lib.ext st.loaded_extensions
      loaded_c_extensions := st.loaded_c_extensions
      root_nodes := removeRootsOf lib.ext st.root_nodes }

/-- The inner loop of `docview::get_doc_tree`: tries, in load order, each
loaded extension whose applicability level equals `lvl`, returning the first
non-null parse result together with the extension that produced it. -/
def tryExtsAtLevel (env : ExtId → ExtObj) (q : FsPath) (lvl : Nat) :
    List ExtId → Option (RootId × ExtId)
  | [] => none
  | e :: rest =>
    if (env e).lvl ≠ lvl then tryExtsAtLevel env q lvl rest
    else
      match (env e).parse q with
      | some r => some (r, e)
      | none => tryExtsAtLevel env q lvl rest

/-- The outer loop of `docview::get_doc_tree` over the `applicability_levels`
array. -/
def tryLevels (env : ExtId → ExtObj) (q : FsPath) (exts : List ExtId) :
    List Nat → Option (RootId × ExtId)
  | [] => none
  | l :: ls =>
    match tryExtsAtLevel env q l exts with
    | some re => some re
    | none => tryLevels env q exts ls

/-- The `applicability_levels` array: tiny, small, medium, big, huge. -/
def applicability_levels : List Nat := [0, 1, 2, 3, 4]

/-- `docview::get_doc_tree`: `NotFound` when the path (or, for a symlink,
its resolved target) does not exist; otherwise tries applicability levels in
ascending order and, within each level, loaded extensions in load order; on
the first non-null parse result, registers the root record and returns the
root; when no extension parses, returns `none` without an error. -/
def get_doc_tree (fs : FileSys) (env : ExtId → ExtObj) (fuel : Nat) (st : State)
    (path : FsPath) : State × Except Err (Option RootId) :=
  if !fs.exists_ path then (st, .error .notFound)
  else if fs.is_symlink path && !fs.exists_ (resolveLinks fs fuel path) then
    (st, .error .notFound)
  else
    let q := if fs.is_symlink path then resolveLinks fs fuel path else path
    match tryLevels env q st.loaded_extensions applicability_levels with
    | some re => ({ st with root_nodes := st.root_nodes ++ [re] }, .ok (some re.1))
    | none => (st, .ok none)

/-- The scan of `get_extension` over `root_nodes`: keeps overwriting `ext`
on every record whose root pointer matches, so the last match wins. -/
def ownerScan (r : RootId) : List (RootId × ExtId) → Option ExtId → Option ExtId
  | [], acc => acc
  | rn :: rest, acc => ownerScan r rest (if rn.1 = r then some rn.2 else acc)

/-- `get_extension` of libdocview.cpp: walks the node's parent chain to its
root, scans `root_nodes` for that root, and yields the owning extension;
`none` models the `std::invalid_argument` throw for an unknown root. -/
def get_extension (st : State) (n : NodeRef) : Option ExtId :=
  ownerScan (walkToRoot n).root st.root_nodes none

/-- `docview::get_doc`: resolves the owner and delegates, failing with
`InvalidNode` when the node belongs to no registered root. -/
def get_doc (env : ExtId → ExtObj) (st : State) (n : NodeRef) :
    Except Err (String × Bool) :=
  match get_extension st n with
  | none => .error .invalidNode
  | some e => .ok ((env e).doc n)

/-- `docview::brief`: resolves the owner and delegates. -/
def brief (env : ExtId → ExtObj) (st : State) (n : NodeRef) : Except Err String :=
  match get_extension st n with
  | none => .error .invalidNode
  | some e => .ok ((env e).brief n)

/-- `docview::details`: resolves the owner and delegates. -/
def details (env : ExtId → ExtObj) (st : State) (n : NodeRef) : Except Err String :=
  match get_extension st n with
  | none => .error .invalidNode
  | some e => .ok ((env e).details n)

/-- `docview::section`: resolves the owner and delegates. -/
def sect (env : ExtId → ExtObj) (st : State) (n : NodeRef) (name : String) :
    Except Err String :=
  match get_extension st n with
  | none => .error .invalidNode
  | some e => .ok ((env e).sect n name)

/-- `docview::validate`: walks to the node's root and reports whether that
root occurs among the registered root records. -/
def validate (st : State) (n : NodeRef) : Bool :=
  st.root_nodes.any (fun rn => (walkToRoot n).root = rn.1)

/-- The loop of `docview::search` over `root_nodes`: concatenates, in
registration order, the matches of `search_node` inside each registered
tree (`treeOf` gives the tree hanging off each root pointer). -/
def searchRoots (treeOf : RootId → DocTree) (q : List Char) :
    List (RootId × ExtId) → List NodeRef
  | [] => []
  | rn :: rest =>
    (search_node q (treeOf rn.1)).map (fun p => ⟨rn.1, p⟩) ++ searchRoots treeOf q rest

/-- `docview::search`: searches every registered tree and concatenates the
matches. -/
def search (treeOf : RootId → DocTree) (st : State) (q : List Char) : List NodeRef :=
  searchRoots treeOf q st.root_nodes

/-- Pre-order enumeration of every node of every registered tree, trees in
registration order. -/
def preorderRoots (treeOf : RootId → DocTree) : List (RootId × ExtId) → List NodeRef
  | [] => []
  | rn :: rest =>
    (preorder (treeOf rn.1)).map (fun p => ⟨rn.1, p⟩) ++ preorderRoots treeOf rest

/-! ## The C function-table adapter (`c_extension`) -/

/-- A node of the plain-data tree produced by a C extension
(`docview_extension_doc_tree_node` of docview.h): title, null-terminated
synonym array and null-terminated child array, modelled as lists. -/
inductive CTree : Type where
  | node : List Char → List (List Char) → List CTree → CTree
deriving Repr

/-- Title of a C node. -/
def CTree.title : CTree → List Char
  | .node t _ _ => t

/-- Synonyms of a C node. -/
def CTree.synonyms : CTree → List (List Char)
  | .node _ s _ => s

/-- Children of a C node. -/
def CTree.children : CTree → List CTree
  | .node _ _ c => c

mutual

/-- `c_extension::build_doc_tree`: allocates a fresh `docview::doc_tree_node`,
sets its parent, records the mapping to the original C node, and converts the
children in order. The freshly allocated node's `title` and `synonyms` are
left default-initialized (empty); the function never copies them from the
source node. -/
def build_doc_tree : CTree → DocTree
  | .node _ _ cs => .node [] [] (buildKids cs)
termination_by t => sizeOf t

/-- The child loop of `build_doc_tree`. -/
def buildKids : List CTree → List DocTree
  | [] => []
  | c :: rest => build_doc_tree c :: buildKids rest
termination_by cs => sizeOf cs

end

/-- The `original_nodes` map recorded by `build_doc_tree`: the converted node
at position `p` is mapped back to the original C node at the same position
of the source tree. -/
def originalAt : List Nat → CTree → Option CTree
  | [], t => some t
  | i :: p, t => (t.children[i]?).bind (originalAt p)

/-- `c_extension::brief`: forwards to the extension's `get_brief` function
with the original C node, or returns the empty string when the function
pointer is null. `orig` stands for the `original_nodes` lookup. -/
def c_brief (fns : CExtFuncs) (orig : NodeRef → Nat) (n : NodeRef) : String :=
  match fns.get_brief with
  | some f => f (orig n)
  | none => ""

/-- `c_extension::details`: like `c_brief` for `get_details`. -/
def c_details (fns : CExtFuncs) (orig : NodeRef → Nat) (n : NodeRef) : String :=
  match fns.get_details with
  | some f => f (orig n)
  | none => ""

/-- `c_extension::section`: like `c_brief` for `get_section`. -/
def c_sect (fns : CExtFuncs) (orig : NodeRef → Nat) (n : NodeRef)
    (name : String) : String :=
  match fns.get_section with
  | some f => f (orig n) name
  | none => ""

/-- The base-class `docview::extension::brief`: returns the empty string. -/
def extension_brief_default (_ : NodeRef) : String := ""

/-- The base-class `docview::extension::details`: returns the empty string. -/
def extension_details_default (_ : NodeRef) : String := ""

/-- The base-class `docview::extension::section`: returns the empty string. -/
def extension_sect_default (_ : NodeRef) (_ : String) : String := ""

/-! ## Concrete instances used to witness the theorems below -/

/-- A tree assignment mapping every root pointer to a one-node tree titled
"a". -/
def dupTreeOf : RootId → DocTree := fun _ => DocTree.node ['a'] [] []

/-- A registry state in which the same root pointer is registered twice
(an extension returned the same tree root from two parse calls). -/
def dupState : State := ⟨[], [], [], [(0, 1), (0, 1)]⟩

/-- A small file system with two regular files and no symlinks. -/
def wFs : FileSys :=
  { exists_ := fun p => p == "docs" || p == "mod"
    is_regular_file := fun p => p == "docs" || p == "mod"
    is_symlink := fun _ => false
    read_symlink := fun p => p }

/-- Extension behaviours: extension 1 declares level huge, every other
extension declares level tiny; all of them parse the path "docs". -/
def wEnvA : ExtId → ExtObj := fun e =>
  { lvl := if e = 1 then 4 else 0
    parse := fun p => if p == "docs" then some (100 + e) else none
    doc := fun _ => ("doc", false)
    brief := fun _ => ""
    details := fun _ => ""
    sect := fun _ _ => "" }

/-- A state with extensions 1 and 2 loaded, in this order. -/
def wStA : State := ⟨[], [1, 2], [], []⟩

/-- Modules that open fine and expose a native extension object. -/
def wMods : FsPath → ModuleInfo := fun _ =>
  { canOpen := true, extObj := some 5, funcs := none, cExtId := 9 }

/-- The empty registry state. -/
def wStB : State := ⟨[], [], [], []⟩

/-- Modules that open fine but expose neither extension symbol. -/
def wModsBad : FsPath → ModuleInfo := fun _ =>
  { canOpen := true, extObj := none, funcs := none, cExtId := 9 }

/-- A state with two loaded modules and one root record per extension. -/
def wStC : State :=
  ⟨[⟨"m", some 1⟩, ⟨"n", some 2⟩], [1, 2], [], [(0, 1), (1, 2)]⟩

/-- Extension behaviour with distinguishable query results. -/
def wEnvB : ExtId → ExtObj := fun _ =>
  { lvl := 0
    parse := fun _ => none
    doc := fun _ => ("X", true)
    brief := fun _ => "b"
    details := fun _ => "d"
    sect := fun _ name => name }

/-- A state with a single root record, root 0 owned by extension 3. -/
def wStD : State := ⟨[], [], [], [(0, 3)]⟩

/-- An extension that leaves the optional text operations at the base-class
defaults. -/
def wEnvC : ExtId → ExtObj := fun _ =>
  { lvl := 0
    parse := fun _ => none
    doc := fun _ => ("", false)
    brief := extension_brief_default
    details := extension_details_default
    sect := extension_sect_default }

/-! ## Theorems -/

theorem matchesAt_cons (q : List Char) (ti : List Char) (sy : List (List Char))
    (cs : List DocTree) (k : Nat) (c : DocTree) (hk : cs[k]? = some c) (p : List Nat) :
    matchesAt q (.node ti sy cs) (k :: p) = matchesAt q c p := by
  simp [matchesAt, getAt, DocTree.children, hk]

mutual

theorem search_node_eq_filter (q : List Char) (t : DocTree) :
    search_node q t = (preorder t).filter (matchesAt q t) := by
  match t with
  | .node ti sy cs =>
    rw [search_node, preorder]
    rw [List.filter_cons]
    have hhead : matchesAt q (DocTree.node ti sy cs) [] = nodeMatches q (.node ti sy cs) := by
      simp [matchesAt, getAt]
    rw [hhead]
    have htail : searchKids q 0 cs =
        (preorderKids 0 cs).filter (matchesAt q (DocTree.node ti sy cs)) :=
      searchKids_eq_filter q 0 cs _ (fun k c p' hk => by simpa using matchesAt_cons q ti sy cs k c hk p')
    rw [← htail]
    unfold nodeMatches
    simp only [DocTree.title, DocTree.synonyms]
    by_cases h1 : (ti.take q.length == q) = true <;>
      by_cases h2 : (sy.any fun s => s.take q.length == q) = true <;>
        simp [h1, h2]
termination_by sizeOf t

theorem searchKids_eq_filter (q : List Char) (i : Nat) (cs : List DocTree)
    (g : List Nat → Bool)
    (hg : ∀ k c p', cs[k]? = some c → g ((i + k) :: p') = matchesAt q c p') :
    searchKids q i cs = (preorderKids i cs).filter g := by
  match cs with
  | [] => rw [searchKids, preorderKids]; rfl
  | c :: rest =>
    rw [searchKids, preorderKids, List.filter_append, List.filter_map]
    have h1 : (fun p => g (i :: p)) = matchesAt q c := by
      funext p'
      have := hg 0 c p' (by simp)
      simpa using this
    have h2 : search_node q c = (preorder c).filter (matchesAt q c) :=
      search_node_eq_filter q c
    have h3 : searchKids q (i + 1) rest = (preorderKids (i + 1) rest).filter g :=
      searchKids_eq_filter q (i + 1) rest g (fun k c' p' hk => by
        have := hg (k + 1) c' p' (by simpa using hk)
        simpa [Nat.add_assoc, Nat.add_comm 1 k] using this)
    rw [h2, h3]
    congr 1
    rw [Function.comp_def, h1]
termination_by sizeOf cs

end

mutual

theorem mem_preorder (t : DocTree) (p : List Nat) :
    p ∈ preorder t ↔ (getAt p t).isSome := by
  match t with
  | .node ti sy cs =>
    rw [preorder]
    cases p with
    | nil => simp [getAt]
    | cons k p' =>
      simp only [List.mem_cons]
      rw [mem_preorderKids 0 cs (k :: p')]
      constructor
      · rintro (h | ⟨k', p'', c, heq, hk, hs⟩)
        · exact absurd h (by simp)
        · obtain ⟨h1, h2⟩ : k = 0 + k' ∧ p' = p'' := by
            constructor <;> [exact (List.cons.injEq .. ▸ heq).1; exact (List.cons.injEq .. ▸ heq).2]
          subst h2
          simp only [Nat.zero_add] at h1
          subst h1
          simp [getAt, DocTree.children, hk, hs]
      · intro hs
        rw [getAt] at hs
        match hck : (DocTree.node ti sy cs).children[k]? with
        | none => rw [hck] at hs; simp at hs
        | some c =>
          rw [hck] at hs
          simp at hs
          exact Or.inr ⟨k, p', c, by simp, by simpa [DocTree.children] using hck, hs⟩
termination_by sizeOf t

theorem mem_preorderKids (i : Nat) (cs : List DocTree) (p : List Nat) :
    p ∈ preorderKids i cs ↔
      ∃ k p' c, p = (i + k) :: p' ∧ cs[k]? = some c ∧ (getAt p' c).isSome := by
  match cs with
  | [] => rw [preorderKids]; simp
  | c :: rest =>
    rw [preorderKids]
    simp only [List.mem_append, List.mem_map]
    constructor
    · rintro (⟨p', hp', rfl⟩ | hrest)
      · exact ⟨0, p', c, by simp, by simp, (mem_preorder c p').mp hp'⟩
      · obtain ⟨k, p', c', heq, hk, hs⟩ := (mem_preorderKids (i + 1) rest p).mp hrest
        exact ⟨k + 1, p', c', by rw [heq]; congr 1; omega, by simpa using hk, hs⟩
    · rintro ⟨k, p', c', heq, hk, hs⟩
      match k with
      | 0 =>
        simp only [List.getElem?_cons_zero, Option.some.injEq] at hk
        subst hk
        exact Or.inl ⟨p', (mem_preorder _ p').mpr hs, by rw [heq]; simp⟩
      | k + 1 =>
        refine Or.inr ((mem_preorderKids (i + 1) rest p).mpr ⟨k, p', c', ?_, ?_, hs⟩)
        · rw [heq]; congr 1; omega
        · simpa using hk
termination_by sizeOf cs

end

mutual

theorem nodup_preorder (t : DocTree) : (preorder t).Nodup := by
  match t with
  | .node ti sy cs =>
    rw [preorder]
    refine List.Nodup.cons ?_ (nodup_preorderKids 0 cs)
    intro hmem
    obtain ⟨k, p', c, heq, _, _⟩ := (mem_preorderKids 0 cs []).mp hmem
    exact absurd heq (by simp)
termination_by sizeOf t

theorem nodup_preorderKids (i : Nat) (cs : List DocTree) :
    (preorderKids i cs).Nodup := by
  match cs with
  | [] => rw [preorderKids]; simp
  | c :: rest =>
    rw [preorderKids]
    refine List.Nodup.append ?_ (nodup_preorderKids (i + 1) rest) ?_
    · exact (nodup_preorder c).map (fun a b h => by simpa using h)
    · intro p hp1 hp2
      obtain ⟨p', _, rfl⟩ := List.mem_map.mp hp1
      obtain ⟨k, p'', c', heq, _, _⟩ := (mem_preorderKids (i + 1) rest _).mp hp2
      have : i = i + 1 + k := (List.cons.injEq .. ▸ heq).1
      omega
termination_by sizeOf cs

end

theorem take_eq_iff (q s : List Char) :
    (s.take q.length == q) = true ↔ ∃ rest, s = q ++ rest := by
  rw [beq_iff_eq]
  constructor
  · intro h
    refine ⟨s.drop q.length, ?_⟩
    conv_lhs => rw [← List.take_append_drop q.length s]
    rw [h]
  · rintro ⟨rest, rfl⟩
    simp

theorem nodeMatches_iff (q : List Char) (s : DocTree) :
    nodeMatches q s = true ↔
      (∃ rest, s.title = q ++ rest) ∨ ∃ syn ∈ s.synonyms, ∃ rest, syn = q ++ rest := by
  unfold nodeMatches
  rw [Bool.or_eq_true, take_eq_iff, List.any_eq_true]
  refine or_congr Iff.rfl ?_
  constructor
  · rintro ⟨syn, hmem, hsyn⟩
    exact ⟨syn, hmem, (take_eq_iff q syn).mp hsyn⟩
  · rintro ⟨syn, hmem, hsyn⟩
    exact ⟨syn, hmem, (take_eq_iff q syn).mpr hsyn⟩

theorem mem_search_node (q : List Char) (t : DocTree) (p : List Nat) :
    p ∈ search_node q t ↔ ∃ s, getAt p t = some s ∧ nodeMatches q s = true := by
  rw [search_node_eq_filter, List.mem_filter, mem_preorder]
  unfold matchesAt
  constructor
  · rintro ⟨hsome, hmatch⟩
    match hs : getAt p t with
    | none => rw [hs] at hsome; simp at hsome
    | some s => rw [hs] at hmatch; exact ⟨s, rfl, hmatch⟩
  · rintro ⟨s, hs, hm⟩
    rw [hs]
    exact ⟨rfl, hm⟩

theorem walkToRoot_eq (n : NodeRef) : walkToRoot n = ⟨n.root, []⟩ := by
  match n with
  | ⟨r, p⟩ =>
    induction p using List.reverseRecOn with
    | nil => rw [walkToRoot]; rfl
    | append_singleton p i ih =>
      rw [walkToRoot]
      simp only [parentOf]
      match hp : (p ++ [i] : List Nat) with
      | [] => exact absurd hp (by simp)
      | a :: l =>
        simp only
        rw [← hp]
        simpa [List.dropLast_concat] using ih

theorem mem_searchRoots (treeOf : RootId → DocTree) (q : List Char)
    (roots : List (RootId × ExtId)) (n : NodeRef) :
    n ∈ searchRoots treeOf q roots ↔
      (∃ e, (n.root, e) ∈ roots) ∧ n.pos ∈ search_node q (treeOf n.root) := by
  induction roots with
  | nil => simp [searchRoots]
  | cons rn rest ih =>
    rw [searchRoots]
    simp only [List.mem_append, List.mem_map, ih]
    constructor
    · rintro (⟨p, hp, rfl⟩ | ⟨⟨e, he⟩, hpos⟩)
      · exact ⟨⟨rn.2, by simp⟩, hp⟩
      · exact ⟨⟨e, List.mem_cons_of_mem _ he⟩, hpos⟩
    · rintro ⟨⟨e, he⟩, hpos⟩
      rcases List.mem_cons.mp he with heq | hrest
      · refine Or.inl ⟨n.pos, ?_, ?_⟩
        · have : rn.1 = n.root := by rw [← heq]
          rw [this]; exact hpos
        · have : rn.1 = n.root := by rw [← heq]
          rw [this]
      · exact Or.inr ⟨⟨e, hrest⟩, hpos⟩

theorem searchRoots_eq_filter (treeOf : RootId → DocTree) (q : List Char)
    (roots : List (RootId × ExtId)) :
    searchRoots treeOf q roots =
      (preorderRoots treeOf roots).filter (fun n => matchesAt q (treeOf n.root) n.pos) := by
  induction roots with
  | nil => rfl
  | cons rn rest ih =>
    rw [searchRoots, preorderRoots, List.filter_append, List.filter_map, ih]
    congr 1
    rw [search_node_eq_filter]
    congr 1

theorem mem_preorderRoots (treeOf : RootId → DocTree) (roots : List (RootId × ExtId))
    (n : NodeRef) (h : n ∈ preorderRoots treeOf roots) : ∃ e, (n.root, e) ∈ roots := by
  induction roots with
  | nil => simp [preorderRoots] at h
  | cons rn rest ih =>
    rw [preorderRoots] at h
    rcases List.mem_append.mp h with hmap | hrest
    · obtain ⟨p, _, rfl⟩ := List.mem_map.mp hmap
      exact ⟨rn.2, by simp⟩
    · obtain ⟨e, he⟩ := ih hrest
      exact ⟨e, List.mem_cons_of_mem _ he⟩

theorem nodup_preorderRoots (treeOf : RootId → DocTree) (roots : List (RootId × ExtId))
    (h : (roots.map Prod.fst).Nodup) : (preorderRoots treeOf roots).Nodup := by
  induction roots with
  | nil => simp [preorderRoots]
  | cons rn rest ih =>
    rw [preorderRoots]
    rw [List.map_cons, List.nodup_cons] at h
    refine List.Nodup.append ?_ (ih h.2) ?_
    · exact (nodup_preorder (treeOf rn.1)).map (fun a b hab => by simpa using hab)
    · intro x hx1 hx2
      obtain ⟨p, _, rfl⟩ := List.mem_map.mp hx1
      obtain ⟨e, he⟩ := mem_preorderRoots treeOf rest _ hx2
      exact h.1 (List.mem_map.mpr ⟨(rn.1, e), he, rfl⟩)

theorem tryExtsAtLevel_eq_none (env : ExtId → ExtObj) (q : FsPath) (lvl : Nat)
    (exts : List ExtId)
    (h : ∀ (j : Nat) (e : ExtId), exts[j]? = some e → (env e).lvl = lvl → (env e).parse q = none) :
    tryExtsAtLevel env q lvl exts = none := by
  induction exts with
  | nil => rfl
  | cons e rest ih =>
    rw [tryExtsAtLevel]
    by_cases hl : (env e).lvl = lvl
    · have hp := h 0 e (by simp) hl
      simp only [hl, ne_eq, not_true_eq_false, if_false, hp]
      exact ih (fun j e' hj hl' => h (j + 1) e' (by simpa using hj) hl')
    · simp only [ne_eq, hl, not_false_eq_true, if_true]
      exact ih (fun j e' hj hl' => h (j + 1) e' (by simpa using hj) hl')

theorem tryExtsAtLevel_eq_some (env : ExtId → ExtObj) (q : FsPath) (lvl : Nat)
    (exts : List ExtId) (i : Nat) (e : ExtId) (r : RootId)
    (hi : exts[i]? = some e) (hl : (env e).lvl = lvl) (hp : (env e).parse q = some r)
    (hbefore : ∀ (j : Nat) (e' : ExtId), j < i → exts[j]? = some e' → (env e').lvl = lvl →
      (env e').parse q = none) :
    tryExtsAtLevel env q lvl exts = some (r, e) := by
  induction exts generalizing i with
  | nil => simp at hi
  | cons e0 rest ih =>
    match i with
    | 0 =>
      simp only [List.getElem?_cons_zero, Option.some.injEq] at hi
      subst hi
      rw [tryExtsAtLevel]
      simp only [hl, ne_eq, not_true_eq_false, if_false, hp]
    | i + 1 =>
      rw [tryExtsAtLevel]
      have hi' : rest[i]? = some e := by simpa using hi
      have hrest := ih i hi' (fun j e' hj hje hl' =>
        hbefore (j + 1) e' (by omega) (by simpa using hje) hl')
      by_cases hl0 : (env e0).lvl = lvl
      · have hp0 := hbefore 0 e0 (by omega) (by simp) hl0
        simp only [hl0, ne_eq, not_true_eq_false, if_false, hp0]
        exact hrest
      · simp only [ne_eq, hl0, not_false_eq_true, if_true]
        exact hrest

theorem tryLevels_skip (env : ExtId → ExtObj) (q : FsPath) (exts : List ExtId)
    (l : Nat) (ls : List Nat) (h : tryExtsAtLevel env q l exts = none) :
    tryLevels env q exts (l :: ls) = tryLevels env q exts ls := by
  rw [tryLevels, h]

theorem tryLevels_hit (env : ExtId → ExtObj) (q : FsPath) (exts : List ExtId)
    (l : Nat) (ls : List Nat) (re : RootId × ExtId)
    (h : tryExtsAtLevel env q l exts = some re) :
    tryLevels env q exts (l :: ls) = some re := by
  rw [tryLevels, h]

theorem tryLevels_all_none (env : ExtId → ExtObj) (q : FsPath) (exts : List ExtId)
    (ls : List Nat) (h : ∀ e ∈ exts, (env e).parse q = none) :
    tryLevels env q exts ls = none := by
  induction ls with
  | nil => rfl
  | cons l ls ih =>
    rw [tryLevels_skip]
    · exact ih
    · refine tryExtsAtLevel_eq_none env q l exts (fun j e hj _ => ?_)
      exact h e (List.getElem?_mem hj)

theorem resolveLinks_of_not_symlink (fs : FileSys) (fuel : Nat) (p : FsPath)
    (h : fs.is_symlink p = false) : resolveLinks fs fuel p = p := by
  cases fuel with
  | zero => rfl
  | succ fuel => rw [resolveLinks]; simp [h]

theorem resolveLinks_of_not_exists (fs : FileSys) (fuel : Nat) (p : FsPath)
    (h : fs.exists_ p = false) : resolveLinks fs fuel p = p := by
  cases fuel with
  | zero => rfl
  | succ fuel => rw [resolveLinks]; simp [h]

/-- Claim C1: for every registry state and resolvable path, `get_doc_tree`
tries applicability levels in ascending order (tiny to huge) and, within one
level, loaded extensions in load order; the first extension returning a
non-null tree wins: iteration stops, the returned root is registered as a
root record owned by that extension, and that root is returned. -/
theorem get_doc_tree_first_wins (fs : FileSys) (env : ExtId → ExtObj) (fuel : Nat)
    (st : State) (path q : FsPath) (i : Nat) (e : ExtId) (r : RootId) (L : Nat)
    (hex : fs.exists_ path = true)
    (hq : q = if fs.is_symlink path then resolveLinks fs fuel path else path)
    (hqex : fs.exists_ q = true)
    (hi : st.loaded_extensions[i]? = some e)
    (hL : (env e).lvl = L) (hL5 : L < 5)
    (hp : (env e).parse q = some r)
    (hmin : ∀ (j : Nat) (e' : ExtId), st.loaded_extensions[j]? = some e' →
      ((env e').lvl < L ∨ ((env e').lvl = L ∧ j < i)) → (env e').parse q = none) :
    get_doc_tree fs env fuel st path =
      ({ st with root_nodes := st.root_nodes ++ [(r, e)] }, .ok (some r)) := by
  have hlevels : tryLevels env q st.loaded_extensions applicability_levels = some (r, e) := by
    have hbelow : ∀ l : Nat, l < L → tryExtsAtLevel env q l st.loaded_extensions = none := by
      intro l hl
      refine tryExtsAtLevel_eq_none env q l _ (fun j e' hj hl' => ?_)
      exact hmin j e' hj (Or.inl (by omega))
    have hatL : tryExtsAtLevel env q L st.loaded_extensions = some (r, e) :=
      tryExtsAtLevel_eq_some env q L _ i e r hi hL hp
        (fun j e' hji hj hl' => hmin j e' hj (Or.inr ⟨hl', hji⟩))
    unfold applicability_levels
    interval_cases L
    · exact tryLevels_hit _ _ _ _ _ _ hatL
    · rw [tryLevels_skip _ _ _ _ _ (hbelow 0 (by omega))]
      exact tryLevels_hit _ _ _ _ _ _ hatL
    · rw [tryLevels_skip _ _ _ _ _ (hbelow 0 (by omega)),
        tryLevels_skip _ _ _ _ _ (hbelow 1 (by omega))]
      exact tryLevels_hit _ _ _ _ _ _ hatL
    · rw [tryLevels_skip _ _ _ _ _ (hbelow 0 (by omega)),
        tryLevels_skip _ _ _ _ _ (hbelow 1 (by omega)),
        tryLevels_skip _ _ _ _ _ (hbelow 2 (by omega))]
      exact tryLevels_hit _ _ _ _ _ _ hatL
    · rw [tryLevels_skip _ _ _ _ _ (hbelow 0 (by omega)),
        tryLevels_skip _ _ _ _ _ (hbelow 1 (by omega)),
        tryLevels_skip _ _ _ _ _ (hbelow 2 (by omega)),
        tryLevels_skip _ _ _ _ _ (hbelow 3 (by omega))]
      exact tryLevels_hit _ _ _ _ _ _ hatL
  rw [get_doc_tree]
  by_cases hsym : fs.is_symlink path = true
  · have hq' : q = resolveLinks fs fuel path := by rw [hq, if_pos hsym]
    rw [← hq'] at *
    simp only [hex, Bool.not_true, Bool.false_eq_true, if_false, hsym, hqex,
      Bool.and_false, if_true, hlevels]
  · have hsym' : fs.is_symlink path = false := by simpa using hsym
    have hq' : q = path := by rw [hq, if_neg (by simp [hsym'])]
    subst hq'
    simp only [hex, Bool.not_true, Bool.false_eq_true, if_false, hsym',
      Bool.false_and, hlevels]

/-- Claim C7: `get_doc_tree` fails with `NotFound` exactly when the path,
after symlink resolution, does not exist; when the path resolves but every
loaded extension returns null at every level, it returns `none` with no
error, leaving the root records unchanged. -/
theorem get_doc_tree_not_found_iff (fs : FileSys) (env : ExtId → ExtObj) (fuel : Nat)
    (st : State) (path : FsPath)
    (hsettle : fs.is_symlink (resolveLinks fs fuel path) = true →
      fs.exists_ (resolveLinks fs fuel path) = false) :
    ((get_doc_tree fs env fuel st path).2 = Except.error Err.notFound ↔
      fs.exists_ (resolveLinks fs fuel path) = false) ∧
    (fs.exists_ (resolveLinks fs fuel path) = true →
      (∀ e ∈ st.loaded_extensions, (env e).parse (resolveLinks fs fuel path) = none) →
      get_doc_tree fs env fuel st path = (st, Except.ok none)) := by
  constructor
  · by_cases hex : fs.exists_ path = true
    · by_cases hsym : fs.is_symlink path = true
      · rw [get_doc_tree]
        simp only [hex, Bool.not_true, Bool.false_eq_true, if_false, hsym, Bool.true_and]
        by_cases hq : fs.exists_ (resolveLinks fs fuel path) = true
        · simp only [hq, Bool.not_true, Bool.false_eq_true, if_false, if_true]
          cases htl : tryLevels env (resolveLinks fs fuel path) st.loaded_extensions
              applicability_levels <;> simp [htl, hq]
        · have hq' : fs.exists_ (resolveLinks fs fuel path) = false := by simpa using hq
          simp [hq']
      · have hsym' : fs.is_symlink path = false := by simpa using hsym
        have hrl : resolveLinks fs fuel path = path :=
          resolveLinks_of_not_symlink _ _ _ hsym'
        rw [get_doc_tree, hrl]
        simp only [hex, Bool.not_true, Bool.false_eq_true, if_false, hsym',
          Bool.false_and, Bool.false_eq_true, if_false]
        cases htl : tryLevels env path st.loaded_extensions applicability_levels <;>
          simp [htl, hex]
    · have hex' : fs.exists_ path = false := by simpa using hex
      have hrl := resolveLinks_of_not_exists fs fuel path hex'
      rw [get_doc_tree, hrl]
      simp [hex']
  · intro hq hnone
    have hex : fs.exists_ path = true := by
      by_contra hc
      have hc' : fs.exists_ path = false := by simpa using hc
      rw [resolveLinks_of_not_exists fs fuel path hc'] at hq
      rw [hq] at hc'
      simp at hc'
    rw [get_doc_tree]
    by_cases hsym : fs.is_symlink path = true
    · simp only [hex, Bool.not_true, Bool.false_eq_true, if_false, hsym, Bool.true_and,
        hq, Bool.not_true, if_true]
      rw [tryLevels_all_none env _ _ _ hnone]
    · have hsym' : fs.is_symlink path = false := by simpa using hsym
      have hrl : resolveLinks fs fuel path = path :=
        resolveLinks_of_not_symlink _ _ _ hsym'
      rw [hrl] at hnone
      simp only [hex, Bool.not_true, Bool.false_eq_true, if_false, hsym',
        Bool.false_and, Bool.false_eq_true, if_false]
      rw [tryLevels_all_none env _ _ _ hnone]

theorem setLastExt_append (xs : List LoadedLib) (l : LoadedLib) (e : ExtId) :
    setLastExt e (xs ++ [l]) = xs ++ [{ l with ext := some e }] := by
  induction xs with
  | nil => rfl
  | cons x xs ih =>
    have h1 : setLastExt e ((x :: xs) ++ [l]) = x :: setLastExt e (xs ++ [l]) := by
      rcases hxs : xs ++ [l] with _ | ⟨y, t⟩
      · exact absurd hxs (by simp)
      · rw [List.cons_append, hxs]
        simp only [setLastExt]
    rw [h1, ih, List.cons_append]

theorem is_loaded_false_filter (st : State) (path : FsPath)
    (h : is_loaded st path = false) :
    st.loaded_libs.filter (fun l => l.path = path) = [] := by
  rw [List.filter_eq_nil_iff]
  intro l hl
  unfold is_loaded at h
  rw [List.any_eq_false] at h
  exact h l hl

/-- Claim C2: for every valid module path not yet loaded (a symbolic link
to the module file satisfies the same hypotheses, since `exists` and
`is_regular_file` follow links), `load_ext` succeeds, `is_loaded` then
returns true, a second `load_ext` is a no-op, and exactly one registry
entry exists for that path. -/
theorem load_then_is_loaded (fs : FileSys) (mods : FsPath → ModuleInfo) (fuel : Nat)
    (st : State) (path : FsPath)
    (hnl : is_loaded st path = false)
    (hex : fs.exists_ path = true)
    (hreg : fs.is_regular_file path = true)
    (hopen : (mods path).canOpen = true)
    (hvalid : (mods path).extObj.isSome = true ∨
      ((mods path).extObj = none ∧ ∃ fns, (mods path).funcs = some fns ∧
        fns.mandatoryPresent = true)) :
    (load_ext fs mods fuel st path).2 = none ∧
    is_loaded (load_ext fs mods fuel st path).1 path = true ∧
    load_ext fs mods fuel (load_ext fs mods fuel st path).1 path =
      ((load_ext fs mods fuel st path).1, none) ∧
    ((load_ext fs mods fuel st path).1.loaded_libs.filter
      (fun l => l.path = path)).length = 1 := by
  have hfil := is_loaded_false_filter st path hnl
  have hstep : load_ext fs mods fuel st path = loadCore mods st path := by
    rw [load_ext]
    simp [hnl, hex, hreg]
  have hcore : ∃ e : ExtId, loadCore mods st path =
      ({ st with
          loaded_extensions := st.loaded_extensions ++ [e]
          loaded_libs := st.loaded_libs ++ [⟨path, some e⟩] }, none) ∨
      loadCore mods st path =
      ({ st with
          loaded_c_extensions := st.loaded_c_extensions ++ [e]
          loaded_extensions := st.loaded_extensions ++ [e]
          loaded_libs := st.loaded_libs ++ [⟨path, some e⟩] }, none) := by
    rcases hvalid with hobj | ⟨hnone, fns, hfns, hmand⟩
    · obtain ⟨e, he⟩ := Option.isSome_iff_exists.mp hobj
      refine ⟨e, Or.inl ?_⟩
      rw [loadCore]
      simp only [hopen, Bool.not_true, Bool.false_eq_true, if_false, he]
      rw [setLastExt_append]
    · refine ⟨(mods path).cExtId, Or.inr ?_⟩
      rw [loadCore]
      simp only [hopen, Bool.not_true, Bool.false_eq_true, if_false, hnone, hfns, hmand,
        if_true]
      rw [setLastExt_append]
  obtain ⟨e, hcase⟩ := hcore
  have hmain : ∀ st' : State,
      load_ext fs mods fuel st path = (st', none) →
      st'.loaded_libs = st.loaded_libs ++ [⟨path, some e⟩] →
      (load_ext fs mods fuel st path).2 = none ∧
      is_loaded (load_ext fs mods fuel st path).1 path = true ∧
      load_ext fs mods fuel (load_ext fs mods fuel st path).1 path =
        ((load_ext fs mods fuel st path).1, none) ∧
      ((load_ext fs mods fuel st path).1.loaded_libs.filter
        (fun l => l.path = path)).length = 1 := by
    intro st' heq hlibs
    have hload : is_loaded st' path = true := by
      unfold is_loaded
      rw [hlibs, List.any_append]
      simp [List.any_cons]
    refine ⟨by rw [heq], by rw [heq]; exact hload, ?_, ?_⟩
    · rw [heq]
      rw [load_ext]
      simp [hload]
    · rw [heq]
      simp only
      rw [hlibs, List.filter_append, hfil]
      simp
  rcases hcase with hcase | hcase
  · exact hmain _ (by rw [hstep, hcase]) rfl
  · exact hmain _ (by rw [hstep, hcase]) rfl

/-- Claim C9: when `load_ext` opens the module but fails with
`InvalidExtension` because the module exposes neither the native extension
object symbol nor a usable function table, the module entry pushed to
`loaded_libs` is not removed: `is_loaded` returns true immediately after
the failed load although no extension object was registered. -/
theorem load_invalid_keeps_entry (fs : FileSys) (mods : FsPath → ModuleInfo)
    (fuel : Nat) (st : State) (path : FsPath)
    (hnl : is_loaded st path = false)
    (hex : fs.exists_ path = true)
    (hreg : fs.is_regular_file path = true)
    (hopen : (mods path).canOpen = true)
    (hobj : (mods path).extObj = none)
    (hfun : (mods path).funcs = none ∨ ∃ fns, (mods path).funcs = some fns ∧
      fns.mandatoryPresent = false) :
    load_ext fs mods fuel st path =
      ({ st with loaded_libs := st.loaded_libs ++ [⟨path, none⟩] }, some Err.invalidExt) ∧
    is_loaded (load_ext fs mods fuel st path).1 path = true ∧
    (load_ext fs mods fuel st path).1.loaded_extensions = st.loaded_extensions := by
  have hstep : load_ext fs mods fuel st path = loadCore mods st path := by
    rw [load_ext]
    simp [hnl, hex, hreg]
  have hcore : loadCore mods st path =
      ({ st with loaded_libs := st.loaded_libs ++ [⟨path, none⟩] }, some Err.invalidExt) := by
    rw [loadCore]
    rcases hfun with hfn | ⟨fns, hfns, hmand⟩
    · simp [hopen, hobj, hfn]
    · simp [hopen, hobj, hfns, hmand]
  rw [hstep, hcore]
  refine ⟨rfl, ?_, rfl⟩
  unfold is_loaded
  rw [List.any_append]
  simp [List.any_cons]

theorem removeRootsOf_eq_filter (e : ExtId) (l : List (RootId × ExtId)) :
    removeRootsOf (some e) l = l.filter (fun rn => rn.2 ≠ e) := by
  induction l with
  | nil => rfl
  | cons rn rest ih =>
    rw [removeRootsOf, ih, List.filter_cons]
    by_cases h : e = rn.2
    · simp [h]
    · have h' : rn.2 ≠ e := fun hc => h hc.symm
      simp [h, h']

/-- Claim C5: after `unload_ext` of a loaded extension, exactly the root
records owned by its extension are removed and every other record is kept,
so `validate` returns false for nodes of trees that extension produced and
stays true for nodes of trees owned by other extensions. -/
theorem unload_ext_frame (st : State) (path : FsPath) (lib : LoadedLib) (e : ExtId)
    (hfind : st.loaded_libs.find? (fun l => l.path = path) = some lib)
    (hext : lib.ext = some e) :
    (unload_ext st path).root_nodes = st.root_nodes.filter (fun rn => rn.2 ≠ e) ∧
    (∀ n : NodeRef, (n.root, e) ∈ st.root_nodes →
      (∀ e', (n.root, e') ∈ st.root_nodes → e' = e) →
      validate (unload_ext st path) n = false) ∧
    (∀ n : NodeRef, ∀ e', e' ≠ e → (n.root, e') ∈ st.root_nodes →
      validate (unload_ext st path) n = true) := by
  have h1 : unload_ext st path =
      { loaded_libs := eraseFirstLib path st.loaded_libs
        loaded_extensions := removeExts lib.ext st.loaded_extensions
        loaded_c_extensions := st.loaded_c_extensions
        root_nodes := removeRootsOf lib.ext st.root_nodes } := by
    rw [unload_ext, hfind]
  have hst : (unload_ext st path).root_nodes = st.root_nodes.filter (fun rn => rn.2 ≠ e) := by
    rw [h1, hext]
    exact removeRootsOf_eq_filter e st.root_nodes
  refine ⟨hst, ?_, ?_⟩
  · intro n hmem huniq
    rw [validate, hst]
    rw [Bool.eq_false_iff]
    intro hany
    rw [List.any_eq_true] at hany
    obtain ⟨rn, hrn, hroot⟩ := hany
    rw [List.mem_filter] at hrn
    have hroot' : (walkToRoot n).root = rn.1 := by simpa using hroot
    rw [walkToRoot_eq] at hroot'
    have : (n.root, rn.2) ∈ st.root_nodes := by
      have : rn = (n.root, rn.2) := by
        rcases rn with ⟨r1, r2⟩
        simp only at hroot'
        rw [hroot']
      rw [← this]
      exact hrn.1
    have := huniq rn.2 this
    have hne : rn.2 ≠ e := by simpa using hrn.2
    exact hne this
  · intro n e' hne hmem
    rw [validate, hst]
    rw [List.any_eq_true]
    refine ⟨(n.root, e'), ?_, ?_⟩
    · rw [List.mem_filter]
      exact ⟨hmem, by simpa using hne⟩
    · rw [walkToRoot_eq]
      simp

theorem ownerScan_no_match (r : RootId) (l : List (RootId × ExtId))
    (acc : Option ExtId) (h : ∀ e, (r, e) ∉ l) : ownerScan r l acc = acc := by
  induction l generalizing acc with
  | nil => rfl
  | cons rn rest ih =>
    rw [ownerScan]
    have hne : rn.1 ≠ r := by
      intro hc
      exact h rn.2 (by rw [← hc]; exact List.mem_cons_self _ _)
    rw [if_neg hne]
    exact ih _ (fun e hc => h e (List.mem_cons_of_mem _ hc))

theorem ownerScan_none (r : RootId) (l : List (RootId × ExtId)) (acc : Option ExtId)
    (h : ownerScan r l acc = none) : acc = none ∧ ∀ e, (r, e) ∉ l := by
  induction l generalizing acc with
  | nil => exact ⟨h, by simp⟩
  | cons rn rest ih =>
    rw [ownerScan] at h
    obtain ⟨hacc, hrest⟩ := ih _ h
    by_cases hr : rn.1 = r
    · rw [if_pos hr] at hacc
      simp at hacc
    · rw [if_neg hr] at hacc
      refine ⟨hacc, fun e hmem => ?_⟩
      rcases List.mem_cons.mp hmem with heq | hmem'
      · exact hr (by rw [← heq])
      · exact hrest e hmem'

theorem ownerScan_unique (r : RootId) (l : List (RootId × ExtId)) (acc : Option ExtId)
    (e : ExtId) (hmem : (r, e) ∈ l) (huniq : ∀ e', (r, e') ∈ l → e' = e) :
    ownerScan r l acc = some e := by
  induction l generalizing acc with
  | nil => simp at hmem
  | cons rn rest ih =>
    rw [ownerScan]
    by_cases hrest : (r, e) ∈ rest
    · exact ih _ hrest (fun e' h' => huniq e' (List.mem_cons_of_mem _ h'))
    · have hrn : rn = (r, e) := by
        rcases List.mem_cons.mp hmem with heq | h'
        · exact heq.symm
        · exact absurd h' hrest
      subst hrn
      rw [if_pos rfl]
      refine ownerScan_no_match r rest (some e) (fun e' hc => ?_)
      have := huniq e' (List.mem_cons_of_mem _ hc)
      subst this
      exact hrest hc

theorem get_extension_eq (st : State) (n : NodeRef) :
    get_extension st n = ownerScan n.root st.root_nodes none := by
  rw [get_extension, walkToRoot_eq]

theorem get_extension_none_iff (st : State) (n : NodeRef) :
    get_extension st n = none ↔ ∀ e, (n.root, e) ∉ st.root_nodes := by
  rw [get_extension_eq]
  constructor
  · intro h
    exact (ownerScan_none n.root st.root_nodes none h).2
  · intro h
    exact ownerScan_no_match n.root st.root_nodes none h

theorem get_extension_unique (st : State) (n : NodeRef) (e : ExtId)
    (hmem : (n.root, e) ∈ st.root_nodes)
    (huniq : ∀ e', (n.root, e') ∈ st.root_nodes → e' = e) :
    get_extension st n = some e := by
  rw [get_extension_eq]
  exact ownerScan_unique n.root st.root_nodes none e hmem huniq

/-- Claim C6: each query operation (`get_doc`, `brief`, `details`,
`sect`) fails with `InvalidNode` exactly when the node's root matches no
registered root record, rather than returning a default; when the root is
registered, the call is delegated to the extension owning that root. -/
theorem query_ops_invalid_node (env : ExtId → ExtObj) (st : State) (n : NodeRef) :
    (get_doc env st n = .error .invalidNode ↔ ∀ e, (n.root, e) ∉ st.root_nodes) ∧
    (brief env st n = .error .invalidNode ↔ ∀ e, (n.root, e) ∉ st.root_nodes) ∧
    (details env st n = .error .invalidNode ↔ ∀ e, (n.root, e) ∉ st.root_nodes) ∧
    (∀ name, sect env st n name = .error .invalidNode ↔
      ∀ e, (n.root, e) ∉ st.root_nodes) ∧
    (∀ e, (n.root, e) ∈ st.root_nodes →
      (∀ e', (n.root, e') ∈ st.root_nodes → e' = e) →
      get_doc env st n = .ok ((env e).doc n) ∧
      brief env st n = .ok ((env e).brief n) ∧
      details env st n = .ok ((env e).details n) ∧
      ∀ name, sect env st n name = .ok ((env e).sect n name)) := by
  refine ⟨?_, ?_, ?_, ?_, ?_⟩
  · rw [get_doc, ← get_extension_none_iff]
    cases hge : get_extension st n <;> simp [hge]
  · rw [brief, ← get_extension_none_iff]
    cases hge : get_extension st n <;> simp [hge]
  · rw [details, ← get_extension_none_iff]
    cases hge : get_extension st n <;> simp [hge]
  · intro name
    rw [sect, ← get_extension_none_iff]
    cases hge : get_extension st n <;> simp [hge]
  · intro e hmem huniq
    have hge := get_extension_unique st n e hmem huniq
    exact ⟨by rw [get_doc, hge], by rw [brief, hge], by rw [details, hge],
      fun name => by rw [sect, hge]⟩

/-- Claim C8: for a valid node, `brief`, `details` and `sect` return the
empty string when the owning extension keeps the base-class default
implementation of the operation, and also when the owner is a C
function-table extension whose corresponding function pointer is null. -/
theorem default_and_null_text_ops_empty (env : ExtId → ExtObj) (st : State)
    (n : NodeRef) (e : ExtId) (name : String)
    (hown : get_extension st n = some e) :
    ((env e).brief = extension_brief_default → brief env st n = .ok "") ∧
    ((env e).details = extension_details_default → details env st n = .ok "") ∧
    ((env e).sect = extension_sect_default → sect env st n name = .ok "") ∧
    (∀ fns orig, fns.get_brief = none → (env e).brief = c_brief fns orig →
      brief env st n = .ok "") ∧
    (∀ fns orig, fns.get_details = none → (env e).details = c_details fns orig →
      details env st n = .ok "") ∧
    (∀ fns orig, fns.get_section = none → (env e).sect = c_sect fns orig →
      sect env st n name = .ok "") := by
  refine ⟨?_, ?_, ?_, ?_, ?_, ?_⟩
  · intro h
    rw [brief, hown]
    show Except.ok ((env e).brief n) = Except.ok ""
    rw [h]
    rfl
  · intro h
    rw [details, hown]
    show Except.ok ((env e).details n) = Except.ok ""
    rw [h]
    rfl
  · intro h
    rw [sect, hown]
    show Except.ok ((env e).sect n name) = Except.ok ""
    rw [h]
    rfl
  · intro fns orig hnull h
    rw [brief, hown]
    show Except.ok ((env e).brief n) = Except.ok ""
    rw [h]
    simp [c_brief, hnull]
  · intro fns orig hnull h
    rw [details, hown]
    show Except.ok ((env e).details n) = Except.ok ""
    rw [h]
    simp [c_details, hnull]
  · intro fns orig hnull h
    rw [sect, hown]
    show Except.ok ((env e).sect n name) = Except.ok ""
    rw [h]
    simp [c_sect, hnull]

/-- Claim C4: a node is in the result of `search` if and only if its tree
is registered and its title, or one of its synonyms, has the query as a
prefix (exact equality included, byte-exact comparison); matching is
decided per node, independently of ancestors, and the results of all
registered roots are concatenated. -/
theorem search_mem_iff_prefix_match (treeOf : RootId → DocTree) (st : State)
    (q : List Char) (r : RootId) (p : List Nat) :
    (⟨r, p⟩ : NodeRef) ∈ search treeOf st q ↔
      (∃ e, (r, e) ∈ st.root_nodes) ∧
        ∃ s, getAt p (treeOf r) = some s ∧
          ((∃ rest, s.title = q ++ rest) ∨
            ∃ syn ∈ s.synonyms, ∃ rest, syn = q ++ rest) := by
  rw [search, mem_searchRoots]
  refine and_congr Iff.rfl ?_
  rw [mem_search_node]
  exact exists_congr fun s =>
    and_congr Iff.rfl (by rw [← nodeMatches_iff])

/-- Claim C10 (amended): for a fixed registry state whose root records
carry pairwise distinct root pointers, `search` is the pre-order
enumeration of all registered trees (trees in registration order, each
node before its descendants, children in stored order) filtered by the
match predicate, and no node occurs twice in the result. -/
theorem search_preorder_filter_nodup (treeOf : RootId → DocTree) (st : State)
    (q : List Char) (hroots : (st.root_nodes.map Prod.fst).Nodup) :
    search treeOf st q =
      (preorderRoots treeOf st.root_nodes).filter
        (fun n => matchesAt q (treeOf n.root) n.pos) ∧
    (search treeOf st q).Nodup := by
  have h1 := searchRoots_eq_filter treeOf q st.root_nodes
  refine ⟨h1, ?_⟩
  rw [search, h1]
  exact (nodup_preorderRoots treeOf st.root_nodes hroots).filter _

/-- Claim C3 (code bug): `c_extension::build_doc_tree` never copies the
source node's title and synonyms into the converted node. Converting a C
node titled "a" with synonym "b" yields a node whose title and synonym list
are empty, so the conversion does not carry the source node's title and
synonyms as the claim states, although it preserves the tree structure. -/
theorem build_doc_tree_drops_title :
    (CTree.node ['a'] [['b']] []).title = ['a'] ∧
    (build_doc_tree (CTree.node ['a'] [['b']] [])).title = [] ∧
    (build_doc_tree (CTree.node ['a'] [['b']] [])).synonyms = [] := by
  refine ⟨rfl, ?_, ?_⟩ <;> rw [build_doc_tree] <;> rfl

/-- Witness for claim C1: with extension 1 at level huge and extension 2
at level tiny, extension 2 wins on the path "docs". -/
theorem get_doc_tree_first_wins_witness :
    get_doc_tree wFs wEnvA 5 wStA "docs" =
      ({ wStA with root_nodes := wStA.root_nodes ++ [(102, 2)] },
        .ok (some 102)) := by
  refine get_doc_tree_first_wins wFs wEnvA 5 wStA "docs" "docs" 1 2 102 0
    rfl rfl rfl rfl rfl (by omega) rfl ?_
  intro j e' hj hlex
  match j, hj with
  | 0, hj =>
    have he : e' = 1 := by
      have h2 : wStA.loaded_extensions[0]? = some 1 := rfl
      rw [h2] at hj
      exact (Option.some.injEq .. ▸ hj).symm
    subst he
    rcases hlex with h | ⟨h1, h2⟩
    · simp [wEnvA] at h
    · simp [wEnvA] at h1
  | 1, hj =>
    have he : e' = 2 := by
      have h2 : wStA.loaded_extensions[1]? = some 2 := rfl
      rw [h2] at hj
      exact (Option.some.injEq .. ▸ hj).symm
    subst he
    rcases hlex with h | ⟨h1, h2⟩
    · simp [wEnvA] at h
    · omega
  | j + 2, hj =>
    have h2 : wStA.loaded_extensions[j + 2]? = none := by
      show ([1, 2] : List ExtId)[j + 2]? = none
      simp
    rw [h2] at hj
    exact absurd hj (by simp)

/-- Witness for claim C2 at a concrete file system and module table. -/
theorem load_then_is_loaded_witness :
    (load_ext wFs wMods 3 wStB "mod").2 = none ∧
    is_loaded (load_ext wFs wMods 3 wStB "mod").1 "mod" = true ∧
    load_ext wFs wMods 3 (load_ext wFs wMods 3 wStB "mod").1 "mod" =
      ((load_ext wFs wMods 3 wStB "mod").1, none) ∧
    ((load_ext wFs wMods 3 wStB "mod").1.loaded_libs.filter
      (fun l => l.path = "mod")).length = 1 :=
  load_then_is_loaded wFs wMods 3 wStB "mod" rfl rfl rfl rfl (Or.inl rfl)

/-- Witness for claim C9: a module with no extension symbols still leaves
its entry in the loaded-modules collection. -/
theorem load_invalid_keeps_entry_witness :
    load_ext wFs wModsBad 3 wStB "mod" =
      ({ wStB with loaded_libs := wStB.loaded_libs ++ [⟨"mod", none⟩] },
        some Err.invalidExt) ∧
    is_loaded (load_ext wFs wModsBad 3 wStB "mod").1 "mod" = true ∧
    (load_ext wFs wModsBad 3 wStB "mod").1.loaded_extensions =
      wStB.loaded_extensions :=
  load_invalid_keeps_entry wFs wModsBad 3 wStB "mod" rfl rfl rfl rfl rfl
    (Or.inl rfl)

/-- Witness for claim C5: unloading the module "m" removes root 0 and
keeps root 1. -/
theorem unload_ext_frame_witness :
    (unload_ext wStC "m").root_nodes = [(1, 2)] ∧
    validate (unload_ext wStC "m") ⟨0, [0]⟩ = false ∧
    validate (unload_ext wStC "m") ⟨1, [2, 3]⟩ = true := by
  have h := unload_ext_frame wStC "m" ⟨"m", some 1⟩ 1 rfl rfl
  refine ⟨?_, ?_, ?_⟩
  · rw [h.1]
    rfl
  · refine h.2.1 ⟨0, [0]⟩ (by simp [wStC]) ?_
    intro e' h'
    have h'' := h'
    simp only [wStC] at h''
    rcases List.mem_cons.mp h'' with h1 | h1
    · have := congrArg Prod.snd h1
      simpa using this
    · rcases List.mem_cons.mp h1 with h2 | h2
      · have := congrArg Prod.fst h2
        simp at this
      · simp at h2
  · exact h.2.2 ⟨1, [2, 3]⟩ 2 (by decide) (by simp [wStC])

/-- Witness for claim C6: a node of the registered root 0 is delegated,
a node of the unknown root 9 fails with `InvalidNode`. -/
theorem query_ops_invalid_node_witness :
    get_doc wEnvB wStD ⟨0, [1]⟩ = .ok ((wEnvB 3).doc ⟨0, [1]⟩) ∧
    get_doc wEnvB wStD ⟨9, []⟩ = .error .invalidNode := by
  constructor
  · refine ((query_ops_invalid_node wEnvB wStD ⟨0, [1]⟩).2.2.2.2 3
      (by simp [wStD]) ?_).1
    intro e' h'
    simpa [wStD, Prod.ext_iff] using h'
  · refine (query_ops_invalid_node wEnvB wStD ⟨9, []⟩).1.mpr ?_
    intro e h'
    simp [wStD, Prod.ext_iff] at h'

/-- Witness for claim C7: an existing path that no loaded extension
parses yields the no-match result and an unchanged state. -/
theorem get_doc_tree_not_found_iff_witness :
    get_doc_tree wFs wEnvB 3 wStB "docs" = (wStB, .ok none) := by
  refine (get_doc_tree_not_found_iff wFs wEnvB 3 wStB "docs" ?_).2 ?_ ?_
  · intro h
    exact absurd h (by decide)
  · decide
  · intro e he
    simp [wStB] at he

/-- Witness for claim C8: an extension with the default text operations
yields empty strings through the registry. -/
theorem default_and_null_text_ops_empty_witness :
    brief wEnvC wStD ⟨0, []⟩ = .ok "" ∧
    details wEnvC wStD ⟨0, []⟩ = .ok "" ∧
    sect wEnvC wStD ⟨0, []⟩ "intro" = .ok "" := by
  have h := default_and_null_text_ops_empty wEnvC wStD ⟨0, []⟩ 3 "intro"
    (by rw [get_extension_eq]; rfl)
  exact ⟨h.1 rfl, h.2.1 rfl, h.2.2.1 rfl⟩

/-- Claim C10, counterexample to the claim as stated: in a registry state
where the same root pointer is registered twice, the single node of that
tree occurs twice in the result of `search`. -/
theorem search_duplicate_root_counterexample :
    search dupTreeOf dupState ['a'] = [⟨0, []⟩, ⟨0, []⟩] ∧
    ¬ (search dupTreeOf dupState ['a']).Nodup := by
  have h : search dupTreeOf dupState ['a'] = [⟨0, []⟩, ⟨0, []⟩] := by
    rw [search]
    show searchRoots dupTreeOf ['a'] [(0, 1), (0, 1)] = _
    rw [searchRoots, searchRoots, searchRoots]
    rw [show dupTreeOf 0 = DocTree.node ['a'] [] [] from rfl]
    rw [search_node, searchKids]
    simp
  refine ⟨h, ?_⟩
  rw [h]
  decide

/-- Witness for claim C10 (amended) on a state with one root record. -/
theorem search_preorder_filter_nodup_witness :
    search dupTreeOf wStD ['a'] =
      (preorderRoots dupTreeOf wStD.root_nodes).filter
        (fun n => matchesAt ['a'] (dupTreeOf n.root) n.pos) ∧
    (search dupTreeOf wStD ['a']).Nodup :=
  search_preorder_filter_nodup dupTreeOf wStD ['a'] (by simp [wStD])
